import Mathlib

/-!
Verification of the isolation-game search engine in
`Projects/Isolation Game Agent/game_agent.py`.

Scores are Python floats used only through comparisons, `min`/`max`, and the
two infinities, so they are embedded as `WithBot (WithTop ℚ)`: `⊥` stands for
`float('-inf')`, `⊤` for `float('inf')`, and finite floats for finite values.
-/

abbrev Score : Type := WithBot (WithTop ℚ)

/-- Embed a finite float value into `Score`. -/
def fsc (q : ℚ) : Score := ((q : WithTop ℚ) : Score)

/-- A board coordinate pair, as returned by `Board.get_legal_moves`. -/
abbrev Move : Type := Int × Int

/-- The game-state view consumed by the search core (spec §4.1, §6): a state
is, for search purposes, its heuristic score `self.score(state, self)` plus
the association of each legal move to its successor snapshot
(`game.forecast_move`).  The children list is in the rules engine's
enumeration order, exactly as `game.get_legal_moves()` returns it. -/
inductive GTree : Type where
  | node (sc : Score) (children : List (Move × GTree)) : GTree

/-- Python's `not legal_moves` test: emptiness of a list is decidable with no
assumption on the elements. -/
instance decNil {α : Type} (cs : List α) : Decidable (cs = []) :=
  match cs with
  | [] => .isTrue rfl
  | _ :: _ => .isFalse (fun h => List.noConfusion h)

def GTree.score : GTree → Score
  | .node sc _ => sc

def GTree.children : GTree → List (Move × GTree)
  | .node _ cs => cs

/-- `game.get_legal_moves()` for the active player. -/
def GTree.legal_moves (t : GTree) : List Move := t.children.map Prod.fst

mutual

/-- `MinimaxPlayer.min_play` (game_agent.py:307-342), with the timer check
stripped: the value computed when no `SearchTimeout` is raised.  The
clocked embedding `min_playC` below carries the timer. -/
def min_play (t : GTree) (d : Int) : Score :=
  match t with
  | .node sc cs =>
    if d = 0 ∨ cs = [] then sc
    else minFold cs d ⊤
termination_by 2 * sizeOf t

/-- The `for move in legal_moves` loop of `min_play`, threading
`lowest_score` (initially `float('inf')`). -/
def minFold (cs : List (Move × GTree)) (d : Int) (lowest : Score) : Score :=
  match cs with
  | [] => lowest
  | (mv, ch) :: rest => minFold rest d (min lowest (max_play ch (d - 1)))
termination_by 2 * sizeOf cs + 1

/-- `MinimaxPlayer.max_play` (game_agent.py:345-380), untimed value. -/
def max_play (t : GTree) (d : Int) : Score :=
  match t with
  | .node sc cs =>
    if d = 0 ∨ cs = [] then sc
    else maxFold cs d ⊥
termination_by 2 * sizeOf t

/-- The `for move in legal_moves` loop of `max_play`, threading
`highest_score` (initially `float('-inf')`). -/
def maxFold (cs : List (Move × GTree)) (d : Int) (highest : Score) : Score :=
  match cs with
  | [] => highest
  | (mv, ch) :: rest => maxFold rest d (max highest (min_play ch (d - 1)))
termination_by 2 * sizeOf cs + 1

end

/-- The sentinel "no move" value `(-1, -1)`. -/
def sentinel : Move := (-1, -1)

/-- The `for move in legal_moves` loop of `minimax`'s root. -/
def mmLoop (cs : List (Move × GTree)) (d : Int) (best_score : Score)
    (best_move : Move) : Move :=
  match cs with
  | [] => best_move
  | (mv, ch) :: rest =>
    let score := min_play ch (d - 1)
    if best_score < score then mmLoop rest d score mv
    else mmLoop rest d best_score best_move

/-- `MinimaxPlayer.minimax` (game_agent.py:260-304), untimed value: the root
maximizing loop with `best_score = float('-inf')` and
`best_move = legal_moves[0]`, updated on strictly greater child scores. -/
def minimax (t : GTree) (d : Int) : Move :=
  match t with
  | .node _ cs =>
    match cs with
    | [] => sentinel
    | (mv₀, _) :: _ => mmLoop cs d ⊥ mv₀

mutual

/-- `AlphaBetaPlayer.ab_min_play` (game_agent.py:491-537), untimed value.
Note the loop returns the threaded `beta` (not `lowest_score`), both on the
`beta <= alpha` break and at normal loop exit. -/
def ab_min_play (t : GTree) (d : Int) (alpha beta : Score) : Score :=
  match t with
  | .node sc cs =>
    if d = 0 ∨ cs = [] then sc
    else abMinFold cs d alpha beta ⊤
termination_by 2 * sizeOf t

/-- The loop of `ab_min_play`: thread `lowest_score` and `beta`, breaking
(and returning the current `beta`) as soon as `beta <= alpha`. -/
def abMinFold (cs : List (Move × GTree)) (d : Int) (alpha beta lowest : Score) :
    Score :=
  match cs with
  | [] => beta
  | (mv, ch) :: rest =>
    let v := ab_max_play ch (d - 1) alpha beta
    let lowest' := min lowest v
    let beta' := min beta lowest'
    if beta' ≤ alpha then beta' else abMinFold rest d alpha beta' lowest'
termination_by 2 * sizeOf cs + 1

/-- `AlphaBetaPlayer.ab_max_play` (game_agent.py:540-586), untimed value.
The loop returns the threaded `alpha` (not `highest_score`). -/
def ab_max_play (t : GTree) (d : Int) (alpha beta : Score) : Score :=
  match t with
  | .node sc cs =>
    if d = 0 ∨ cs = [] then sc
    else abMaxFold cs d alpha beta ⊥
termination_by 2 * sizeOf t

/-- The loop of `ab_max_play`: thread `highest_score` and `alpha`, breaking
(and returning the current `alpha`) as soon as `alpha >= beta`. -/
def abMaxFold (cs : List (Move × GTree)) (d : Int) (alpha beta highest : Score) :
    Score :=
  match cs with
  | [] => alpha
  | (mv, ch) :: rest =>
    let v := ab_min_play ch (d - 1) alpha beta
    let highest' := max highest v
    let alpha' := max alpha highest'
    if beta ≤ alpha' then alpha' else abMaxFold rest d alpha' beta highest'
termination_by 2 * sizeOf cs + 1

end

/-- The `for move in legal_moves` loop of `alphabeta`'s root. -/
def abRoot (cs : List (Move × GTree)) (d : Int) (alpha beta best_score : Score)
    (best_move : Move) : Move :=
  match cs with
  | [] => best_move
  | (mv, ch) :: rest =>
    let score := ab_min_play ch (d - 1) alpha beta
    if beta < score then mv
    else
      let alpha' := max alpha score
      if best_score < score then abRoot rest d alpha' beta score mv
      else abRoot rest d alpha' beta best_score best_move

/-- `AlphaBetaPlayer.alphabeta` (game_agent.py:434-488), untimed value.  The
root loop keeps the minimax update discipline but also returns `move`
immediately when `score > beta` (the caller-supplied bound, never updated in
this loop), and threads `alpha = max(alpha, score)`. -/
def alphabeta (t : GTree) (d : Int) (alpha beta : Score) : Move :=
  match t with
  | .node _ cs =>
    match cs with
    | [] => sentinel
    | (mv₀, _) :: _ => abRoot cs d alpha beta ⊥ mv₀

/-! ## Timed embedding

Python's `SearchTimeout` is an exception; the timed embedding returns
`Except SearchTimeout`.  `self.time_left` is an arbitrary callable queried
once at the entry of each recursive search call; its successive return
values are modelled as a function of the query index, so the state threaded
through the search is the number of clock queries made so far. -/

inductive SearchTimeout : Type where
  | timeout : SearchTimeout
  deriving DecidableEq

/-- The deadline clock: `time_left k` is the value the `self.time_left()`
callable returns at its `k`-th invocation, and `TIMER_THRESHOLD` is the
configured threshold of `IsolationPlayer.__init__`. -/
structure Clock : Type where
  time_left : Nat → ℚ
  TIMER_THRESHOLD : ℚ

/-- The guard `self.time_left() < self.TIMER_THRESHOLD` at query index `n`. -/
def Clock.expired (c : Clock) (n : Nat) : Prop :=
  c.time_left n < c.TIMER_THRESHOLD

instance (c : Clock) (n : Nat) : Decidable (c.expired n) := by
  unfold Clock.expired; infer_instance

mutual

/-- `MinimaxPlayer.min_play` with the timer: raise `SearchTimeout` when the
entry guard fires, otherwise consume one clock query and proceed. -/
def min_playC (c : Clock) (t : GTree) (d : Int) (n : Nat) :
    Except SearchTimeout (Score × Nat) :=
  if c.expired n then .error .timeout
  else
    match t with
    | .node sc cs =>
      if d = 0 ∨ cs = [] then .ok (sc, n + 1) else minFoldC c cs d ⊤ (n + 1)
termination_by 2 * sizeOf t

/-- The loop of `min_playC`; a timeout in any child call propagates. -/
def minFoldC (c : Clock) (cs : List (Move × GTree)) (d : Int) (lowest : Score)
    (n : Nat) : Except SearchTimeout (Score × Nat) :=
  match cs with
  | [] => .ok (lowest, n)
  | (mv, ch) :: rest =>
    match max_playC c ch (d - 1) n with
    | .error e => .error e
    | .ok (v, n') => minFoldC c rest d (min lowest v) n'
termination_by 2 * sizeOf cs + 1

/-- `MinimaxPlayer.max_play` with the timer. -/
def max_playC (c : Clock) (t : GTree) (d : Int) (n : Nat) :
    Except SearchTimeout (Score × Nat) :=
  if c.expired n then .error .timeout
  else
    match t with
    | .node sc cs =>
      if d = 0 ∨ cs = [] then .ok (sc, n + 1) else maxFoldC c cs d ⊥ (n + 1)
termination_by 2 * sizeOf t

/-- The loop of `max_playC`. -/
def maxFoldC (c : Clock) (cs : List (Move × GTree)) (d : Int) (highest : Score)
    (n : Nat) : Except SearchTimeout (Score × Nat) :=
  match cs with
  | [] => .ok (highest, n)
  | (mv, ch) :: rest =>
    match min_playC c ch (d - 1) n with
    | .error e => .error e
    | .ok (v, n') => maxFoldC c rest d (max highest v) n'
termination_by 2 * sizeOf cs + 1

end

/-- The root loop of `minimaxC`. -/
def mmLoopC (c : Clock) (cs : List (Move × GTree)) (d : Int)
    (best_score : Score) (best_move : Move) (n : Nat) :
    Except SearchTimeout (Move × Nat) :=
  match cs with
  | [] => .ok (best_move, n)
  | (mv, ch) :: rest =>
    match min_playC c ch (d - 1) n with
    | .error e => .error e
    | .ok (score, n') =>
      if best_score < score then mmLoopC c rest d score mv n'
      else mmLoopC c rest d best_score best_move n'

/-- `MinimaxPlayer.minimax` with the timer. -/
def minimaxC (c : Clock) (t : GTree) (d : Int) (n : Nat) :
    Except SearchTimeout (Move × Nat) :=
  if c.expired n then .error .timeout
  else
    match t with
    | .node _ cs =>
      match cs with
      | [] => .ok (sentinel, n + 1)
      | (mv₀, _) :: _ => mmLoopC c cs d ⊥ mv₀ (n + 1)

mutual

/-- `AlphaBetaPlayer.ab_min_play` with the timer. -/
def ab_min_playC (c : Clock) (t : GTree) (d : Int) (alpha beta : Score)
    (n : Nat) : Except SearchTimeout (Score × Nat) :=
  if c.expired n then .error .timeout
  else
    match t with
    | .node sc cs =>
      if d = 0 ∨ cs = [] then .ok (sc, n + 1)
      else abMinFoldC c cs d alpha beta ⊤ (n + 1)
termination_by 2 * sizeOf t

/-- The loop of `ab_min_playC`. -/
def abMinFoldC (c : Clock) (cs : List (Move × GTree)) (d : Int)
    (alpha beta lowest : Score) (n : Nat) : Except SearchTimeout (Score × Nat) :=
  match cs with
  | [] => .ok (beta, n)
  | (mv, ch) :: rest =>
    match ab_max_playC c ch (d - 1) alpha beta n with
    | .error e => .error e
    | .ok (v, n') =>
      let lowest' := min lowest v
      let beta' := min beta lowest'
      if beta' ≤ alpha then .ok (beta', n')
      else abMinFoldC c rest d alpha beta' lowest' n'
termination_by 2 * sizeOf cs + 1

/-- `AlphaBetaPlayer.ab_max_play` with the timer. -/
def ab_max_playC (c : Clock) (t : GTree) (d : Int) (alpha beta : Score)
    (n : Nat) : Except SearchTimeout (Score × Nat) :=
  if c.expired n then .error .timeout
  else
    match t with
    | .node sc cs =>
      if d = 0 ∨ cs = [] then .ok (sc, n + 1)
      else abMaxFoldC c cs d alpha beta ⊥ (n + 1)
termination_by 2 * sizeOf t

/-- The loop of `ab_max_playC`. -/
def abMaxFoldC (c : Clock) (cs : List (Move × GTree)) (d : Int)
    (alpha beta highest : Score) (n : Nat) : Except SearchTimeout (Score × Nat) :=
  match cs with
  | [] => .ok (alpha, n)
  | (mv, ch) :: rest =>
    match ab_min_playC c ch (d - 1) alpha beta n with
    | .error e => .error e
    | .ok (v, n') =>
      let highest' := max highest v
      let alpha' := max alpha highest'
      if beta ≤ alpha' then .ok (alpha', n')
      else abMaxFoldC c rest d alpha' beta highest' n'
termination_by 2 * sizeOf cs + 1

end

/-- The root loop of `alphabetaC`: `if score > beta: return move` fires
before the `alpha`/`best_score` updates. -/
def abRootC (c : Clock) (cs : List (Move × GTree)) (d : Int)
    (alpha beta best_score : Score) (best_move : Move) (n : Nat) :
    Except SearchTimeout (Move × Nat) :=
  match cs with
  | [] => .ok (best_move, n)
  | (mv, ch) :: rest =>
    match ab_min_playC c ch (d - 1) alpha beta n with
    | .error e => .error e
    | .ok (score, n') =>
      if beta < score then .ok (mv, n')
      else
        let alpha' := max alpha score
        if best_score < score then abRootC c rest d alpha' beta score mv n'
        else abRootC c rest d alpha' beta best_score best_move n'

/-- `AlphaBetaPlayer.alphabeta` with the timer. -/
def alphabetaC (c : Clock) (t : GTree) (d : Int) (alpha beta : Score)
    (n : Nat) : Except SearchTimeout (Move × Nat) :=
  if c.expired n then .error .timeout
  else
    match t with
    | .node _ cs =>
      match cs with
      | [] => .ok (sentinel, n + 1)
      | (mv₀, _) :: _ => abRootC c cs d alpha beta ⊥ mv₀ (n + 1)

/-! ## Drivers (`get_move`) -/

/-- `MinimaxPlayer.get_move` (game_agent.py:222-258): one fixed-depth
search at `self.search_depth`; `best_move` is initialized to `(-1, -1)` and
is what the `except SearchTimeout` path returns. -/
def MinimaxPlayer.get_move (c : Clock) (t : GTree) (search_depth : Int) : Move :=
  match minimaxC c t search_depth 0 with
  | .ok (m, _) => m
  | .error _ => sentinel

/-- The `while True` iterative-deepening loop of `AlphaBetaPlayer.get_move`
(game_agent.py:422-429).  The Python loop terminates only when a depth's
search raises `SearchTimeout`; the embedding adds a `fuel` bound on the
number of iterations, and every property below holds for all sufficiently
large `fuel`. -/
def abIter (c : Clock) (t : GTree) : Nat → Int → Move → Nat → Move
  | 0, _, best_move, _ => best_move
  | fuel + 1, depth, best_move, n =>
    match alphabetaC c t depth ⊥ ⊤ n with
    | .error _ => best_move
    | .ok (m, n') => abIter c t fuel (depth + 1) m n'

/-- `AlphaBetaPlayer.get_move` (game_agent.py:389-432): if there are no
legal moves return `(-1, -1)`; otherwise start iterative deepening at
`depth = 1` with `best_move = legal_moves[0]`. -/
def AlphaBetaPlayer.get_move (c : Clock) (t : GTree) (fuel : Nat) : Move :=
  match t with
  | .node _ cs =>
    match cs with
    | [] => sentinel
    | (mv₀, _) :: _ => abIter c t fuel 1 mv₀ 0

/-- The driver state of `AlphaBetaPlayer.get_move` after the first `j`
iterations of its loop all completed: the current `best_move` together with
the clock-query index.  `abState c t h j = none` when some iteration among
the first `j` raised `SearchTimeout`. -/
def abState (c : Clock) (t : GTree) (h : t.children ≠ []) :
    Nat → Option (Move × Nat)
  | 0 => some ((t.children.head h).1, 0)
  | j + 1 =>
    match abState c t h j with
    | none => none
    | some (_, n) =>
      match alphabetaC c t (j + 1) ⊥ ⊤ n with
      | .error _ => none
      | .ok (m, n') => some (m, n')

/-! ## Heuristic evaluators (game_agent.py:13-185)

The board interface the heuristics consume (`isolation.Board`) is external
to the repository; only the members actually used are modelled. -/

/-- The members of `isolation.Board` used by the heuristic evaluators. -/
structure Board (P : Type) : Type where
  is_winner : P → Bool
  is_loser : P → Bool
  get_legal_moves : P → List Move
  get_opponent : P → P
  height : Nat
  width : Nat
  get_blank_spaces : List Move

/-- A Python value that is either a float or a string: the codomain of
`opp_diff_aggressive`, whose loss branch returns the string `'-inf'`. -/
inductive PyVal : Type where
  | flt (x : Score) : PyVal
  | str (s : String) : PyVal
  deriving DecidableEq

/-- `opp_diff` (game_agent.py:13-41). -/
def opp_diff {P : Type} (game : Board P) (player : P) : Score :=
  if game.is_winner player then ⊤
  else if game.is_loser player then ⊥
  else
    fsc ((((game.get_legal_moves player).length : Int) -
      ((game.get_legal_moves (game.get_opponent player)).length : Int) : Int))

/-- `opp_diff_defensive` (game_agent.py:44-77), with `theta = 2`. -/
def opp_diff_defensive {P : Type} (game : Board P) (player : P) : Score :=
  if game.is_winner player then ⊤
  else if game.is_loser player then ⊥
  else
    let player_moves := game.get_legal_moves player
    let opponent_moves := game.get_legal_moves (game.get_opponent player)
    fsc ((2 * (player_moves.length : Int) - (opponent_moves.length : Int) : Int))

/-- `opp_diff_aggressive` (game_agent.py:80-113), with `theta = 2`.  Its
loss branch (line 105) is `return ('-inf')`: the parenthesized string
`'-inf'`, not `float('-inf')`. -/
def opp_diff_aggressive {P : Type} (game : Board P) (player : P) : PyVal :=
  if game.is_winner player then .flt ⊤
  else if game.is_loser player then .str "-inf"
  else
    let player_moves := game.get_legal_moves player
    let opponent_moves := game.get_legal_moves (game.get_opponent player)
    .flt (fsc ((player_moves.length : Int) - 2 * (opponent_moves.length : Int) : Int))

/-- `opp_diff_decay` (game_agent.py:116-152), with `theta = 3`.  The
completed-game fraction is computed with exact rational division where
Python uses float division; the claims about this function concern only
which branch is taken and finiteness, which rounding does not affect. -/
def opp_diff_decay {P : Type} (game : Board P) (player : P) : Score :=
  if game.is_winner player then ⊤
  else if game.is_loser player then ⊥
  else
    let player_moves : ℚ := (game.get_legal_moves player).length
    let opponent_moves : ℚ := (game.get_legal_moves (game.get_opponent player)).length
    let gr : ℚ := (((game.height * game.width : ℚ)) - (game.get_blank_spaces.length : ℚ)) /
      ((game.height * game.width : ℚ))
    fsc ((1 - gr) * 3 * player_moves - gr * opponent_moves)

/-- `custom_score` (game_agent.py:155-177). -/
def custom_score {P : Type} (game : Board P) (player : P) : Score :=
  opp_diff_defensive game player

/-- `custom_score_2` (game_agent.py:180-181). -/
def custom_score_2 {P : Type} (game : Board P) (player : P) : Score :=
  opp_diff game player

/-- `custom_score_3` (game_agent.py:184-185). -/
def custom_score_3 {P : Type} (game : Board P) (player : P) : Score :=
  opp_diff_decay game player

/-- The largest heuristic value among the successors in a children list
(`⊥` when the list is empty). -/
def scoreMax (cs : List (Move × GTree)) : Score :=
  (cs.map (fun p => p.2.score)).foldr max ⊥

/-- Modelled from the spec (§8, used only as the specification side of
claim C5): "choosing the legal move whose resulting state has the highest
heuristic value for the moving player, ties broken by enumeration order" —
the first child, in enumeration order, whose heuristic value attains the
maximum over all children. -/
def greedyFirstMax (t : GTree) : Option Move :=
  (t.children.find? (fun p => decide (scoreMax t.children ≤ p.2.score))).map Prod.fst

/-! ## Auxiliary predicates and concrete fixtures -/

/-- A deadline clock that never reports remaining time below the threshold
("never drops below the threshold"): no entry guard ever fires. -/
def calm (c : Clock) : Prop := ∀ k, ¬ c.expired k

/-- Knuth-Moore-style window soundness for the minimizing layer: how
`ab_min_play` relates to the plain `min_play` value on a live window. -/
def KMmin (t : GTree) (d : Int) : Prop := ∀ alpha beta : Score, alpha < beta →
  (min_play t d ≤ alpha → ab_min_play t d alpha beta ≤ alpha) ∧
  (alpha < min_play t d → min_play t d < beta →
    ab_min_play t d alpha beta = min_play t d) ∧
  (beta ≤ min_play t d →
    beta ≤ ab_min_play t d alpha beta ∧ ab_min_play t d alpha beta ≤ min_play t d)

/-- Knuth-Moore-style window soundness for the maximizing layer. -/
def KMmax (t : GTree) (d : Int) : Prop := ∀ alpha beta : Score, alpha < beta →
  (max_play t d ≤ alpha →
    ab_max_play t d alpha beta ≤ alpha ∧ max_play t d ≤ ab_max_play t d alpha beta) ∧
  (alpha < max_play t d → max_play t d < beta →
    ab_max_play t d alpha beta = max_play t d) ∧
  (beta ≤ max_play t d →
    beta ≤ ab_max_play t d alpha beta ∧ ab_max_play t d alpha beta ≤ max_play t d)

/-- A clock with plenty of time at every query (threshold 10 ms, 100 ms
always remaining). -/
def clkC : Clock := ⟨fun _ => 100, 10⟩

/-- A clock that is already past the deadline at every query. -/
def clkE : Clock := ⟨fun _ => 0, 10⟩

/-- A clock that expires at the fifth query (index 4): enough for a depth-1
search of `treeA` but not for the depth-2 re-search. -/
def clk34 : Clock := ⟨fun k => if k < 4 then 100 else 0, 10⟩

/-- A two-move state whose second successor has the better heuristic. -/
def treeA : GTree :=
  .node (fsc 0) [(((0 : Int), (0 : Int)), .node (fsc 3) []),
                 (((1 : Int), (1 : Int)), .node (fsc 7) [])]

/-- A state with no legal moves. -/
def treeLeaf : GTree := .node (fsc 0) []

/-- A state where the heuristically best immediate successor (the second,
value 10) loses its advantage one ply deeper (its only successor has value
0), while the first successor is a leaf of value 5. -/
def treeCex : GTree :=
  .node (fsc 0) [(((0 : Int), (0 : Int)), .node (fsc 5) []),
                 (((1 : Int), (1 : Int)),
                   .node (fsc 10) [(((2 : Int), (2 : Int)), .node (fsc 0) [])])]

/-- A concrete 3×3 board snapshot in which player `true` has lost (no legal
moves anywhere) and player `false` has won. -/
def b0 : Board Bool :=
  { is_winner := fun p => !p
    is_loser := fun p => p
    get_legal_moves := fun _ => []
    get_opponent := fun p => !p
    height := 3
    width := 3
    get_blank_spaces := [] }

/-! ## Pure fold characterizations -/

theorem minFold_eq_min (cs : List (Move × GTree)) (d : Int) :
    ∀ lowest : Score, minFold cs d lowest = min lowest (minFold cs d ⊤) := by
  induction cs with
  | nil => intro lowest; simp [minFold]
  | cons p rest ih =>
    intro lowest
    obtain ⟨mv, ch⟩ := p
    rw [minFold, minFold, ih, ih (min ⊤ _)]
    simp [min_assoc]

theorem minFold_le_acc (cs : List (Move × GTree)) (d : Int) (lowest : Score) :
    minFold cs d lowest ≤ lowest := by
  rw [minFold_eq_min]; exact min_le_left _ _

theorem maxFold_eq_max (cs : List (Move × GTree)) (d : Int) :
    ∀ highest : Score, maxFold cs d highest = max highest (maxFold cs d ⊥) := by
  induction cs with
  | nil => intro highest; simp [maxFold]
  | cons p rest ih =>
    intro highest
    obtain ⟨mv, ch⟩ := p
    rw [maxFold, maxFold, ih, ih (max ⊥ _)]
    simp [max_assoc]

theorem acc_le_maxFold (cs : List (Move × GTree)) (d : Int) (highest : Score) :
    highest ≤ maxFold cs d highest := by
  rw [maxFold_eq_max]; exact le_max_left _ _


/-! ## Window soundness of the pruning layers -/

theorem sizeOf_child_lt (s : Score) {cs : List (Move × GTree)}
    {p : Move × GTree} (hp : p ∈ cs) : sizeOf p.2 < sizeOf (GTree.node s cs) := by
  have h1 : sizeOf p < sizeOf cs := List.sizeOf_lt_of_mem hp
  have h2 : sizeOf p.2 < sizeOf p := by
    obtain ⟨a, b⟩ := p; simp only [Prod.mk.sizeOf_spec]; omega
  have h3 : sizeOf (GTree.node s cs) = 1 + sizeOf s + sizeOf cs := by simp
  omega

theorem abMinFold_spec (d : Int) :
    ∀ (cs : List (Move × GTree)), (∀ p ∈ cs, KMmax p.2 (d - 1)) →
      ∀ (alpha beta lowest : Score), alpha < beta → beta ≤ lowest →
        (alpha < min beta (minFold cs d lowest) →
          abMinFold cs d alpha beta lowest = min beta (minFold cs d lowest)) ∧
        (min beta (minFold cs d lowest) ≤ alpha →
          abMinFold cs d alpha beta lowest ≤ alpha) ∧
        min beta (minFold cs d lowest) ≤ abMinFold cs d alpha beta lowest := by
  intro cs
  induction cs with
  | nil =>
    intro _ alpha beta lowest hab hbl
    rw [abMinFold, minFold, min_eq_left hbl]
    exact ⟨fun _ => rfl, fun h => h, le_refl _⟩
  | cons p rest ih =>
    intro hkm alpha beta lowest hab hbl
    obtain ⟨mv, ch⟩ := p
    have hkmch := hkm ⟨mv, ch⟩ (List.mem_cons_self _ _) alpha beta hab
    have hkmrest : ∀ q ∈ rest, KMmax q.2 (d - 1) :=
      fun q hq => hkm q (List.mem_cons_of_mem _ hq)
    set M := max_play ch (d - 1) with hM
    set v := ab_max_play ch (d - 1) alpha beta with hv
    have hfold : minFold ((mv, ch) :: rest) d lowest = minFold rest d (min lowest M) := by
      rw [minFold]
    have hab' : abMinFold ((mv, ch) :: rest) d alpha beta lowest =
        if min beta (min lowest v) ≤ alpha then min beta (min lowest v)
        else abMinFold rest d alpha (min beta (min lowest v)) (min lowest v) := by
      rw [abMinFold]
    rcases le_or_lt M alpha with hMa | hMa
    · -- first child's true value is at most alpha: the loop breaks at it
      obtain ⟨hva, hMv⟩ := hkmch.1 hMa
      have hbr : min beta (min lowest v) ≤ alpha :=
        le_trans (le_trans (min_le_right _ _) (min_le_right _ _)) hva
      rw [hab', if_pos hbr, hfold]
      have hwM : minFold rest d (min lowest M) ≤ M :=
        le_trans (minFold_le_acc _ _ _) (min_le_right _ _)
      refine ⟨fun hcon => absurd hcon ?_, fun _ => hbr, ?_⟩
      · exact not_lt.mpr (le_trans (le_trans (min_le_right _ _) hwM) hMa)
      · -- min beta w ≤ min beta (min lowest v)
        refine le_min (min_le_left _ _) (le_min ?_ ?_)
        · exact le_trans (min_le_right _ _) (le_trans (minFold_le_acc _ _ _) (min_le_left _ _))
        · exact le_trans (le_trans (min_le_right _ _) hwM) hMv
    · rcases lt_or_le M beta with hMb | hMb
      · -- alpha < M < beta: the child search is exact
        have hveq : v = M := hkmch.2.1 hMa hMb
        have hMlow : M ≤ lowest := le_trans (le_of_lt hMb) hbl
        have hlow' : min lowest v = M := by rw [hveq, min_eq_right hMlow]
        have hbeta' : min beta (min lowest v) = M := by
          rw [hlow', min_eq_right (le_of_lt hMb)]
        have hnbr : ¬ min beta (min lowest v) ≤ alpha := by
          rw [hbeta']; exact not_le.mpr hMa
        rw [hab', if_neg hnbr, hfold, hbeta', hlow']
        have hrec := ih hkmrest alpha M M hMa (le_refl M)
        have hwM : minFold rest d M ≤ M := minFold_le_acc _ _ _
        have hw_eq : minFold rest d (min lowest M) = minFold rest d M := by
          rw [min_eq_right hMlow]
        have hminM : min M (minFold rest d M) = minFold rest d M := min_eq_right hwM
        have hminb : min beta (minFold rest d (min lowest M)) = minFold rest d M := by
          rw [hw_eq]; exact min_eq_right (le_trans hwM (le_of_lt hMb))
        rw [hminb]
        rw [hminM] at hrec
        exact hrec
      · -- beta ≤ M: the child search returns at least beta; beta survives
        obtain ⟨hbv, hvM⟩ := hkmch.2.2 hMb
        have hblow' : beta ≤ min lowest v := le_min hbl hbv
        have hbeta' : min beta (min lowest v) = beta := min_eq_left hblow'
        have hnbr : ¬ min beta (min lowest v) ≤ alpha := by
          rw [hbeta']; exact not_le.mpr hab
        rw [hab', if_neg hnbr, hfold, hbeta']
        have hrec := ih hkmrest alpha beta (min lowest v) hab hblow'
        -- min beta (minFold rest (min lowest v)) = min beta (minFold rest (min lowest M))
        have hkey : min beta (minFold rest d (min lowest v)) =
            min beta (minFold rest d (min lowest M)) := by
          have h1 : min beta (min lowest v) = beta := hbeta'
          have h2 : min beta (min lowest M) = beta :=
            min_eq_left (le_min hbl hMb)
          rw [minFold_eq_min rest d (min lowest v), minFold_eq_min rest d (min lowest M)]
          rw [← min_assoc beta, h1, ← min_assoc beta, h2]
        rw [hkey] at hrec
        exact hrec

theorem abMaxFold_spec (d : Int) :
    ∀ (cs : List (Move × GTree)), (∀ p ∈ cs, KMmin p.2 (d - 1)) →
      ∀ (alpha beta highest : Score), alpha < beta → highest ≤ alpha →
        (max alpha (maxFold cs d highest) < beta →
          abMaxFold cs d alpha beta highest = max alpha (maxFold cs d highest)) ∧
        (beta ≤ max alpha (maxFold cs d highest) →
          beta ≤ abMaxFold cs d alpha beta highest) ∧
        abMaxFold cs d alpha beta highest ≤ max alpha (maxFold cs d highest) := by
  intro cs
  induction cs with
  | nil =>
    intro _ alpha beta highest hab hha
    rw [abMaxFold, maxFold, max_eq_left hha]
    exact ⟨fun _ => rfl, fun h => h, le_refl _⟩
  | cons p rest ih =>
    intro hkm alpha beta highest hab hha
    obtain ⟨mv, ch⟩ := p
    have hkmch := hkm ⟨mv, ch⟩ (List.mem_cons_self _ _) alpha beta hab
    have hkmrest : ∀ q ∈ rest, KMmin q.2 (d - 1) :=
      fun q hq => hkm q (List.mem_cons_of_mem _ hq)
    set m := min_play ch (d - 1) with hm
    set v := ab_min_play ch (d - 1) alpha beta with hv
    have hfold : maxFold ((mv, ch) :: rest) d highest = maxFold rest d (max highest m) := by
      rw [maxFold]
    have hab' : abMaxFold ((mv, ch) :: rest) d alpha beta highest =
        if beta ≤ max alpha (max highest v) then max alpha (max highest v)
        else abMaxFold rest d (max alpha (max highest v)) beta (max highest v) := by
      rw [abMaxFold]
    rcases le_or_lt beta m with hmb | hmb
    · -- beta ≤ m: the loop breaks at this child with a value ≥ beta
      obtain ⟨hbv, hvm⟩ := hkmch.2.2 hmb
      have hbr : beta ≤ max alpha (max highest v) :=
        le_trans hbv (le_trans (le_max_right _ _) (le_max_right _ _))
      rw [hab', if_pos hbr, hfold]
      have hwm : m ≤ maxFold rest d (max highest m) :=
        le_trans (le_max_right _ _) (acc_le_maxFold _ _ _)
      refine ⟨fun hcon => absurd hcon ?_, fun _ => hbr, ?_⟩
      · exact not_lt.mpr (le_trans (le_trans hmb hwm) (le_max_right _ _))
      · refine max_le (le_max_left _ _) (max_le ?_ ?_)
        · exact le_trans (le_max_left _ _) (le_trans (acc_le_maxFold _ _ _) (le_max_right _ _))
        · exact le_trans hvm (le_trans hwm (le_max_right _ _))
    · rcases lt_or_le alpha m with hma | hma
      · -- alpha < m < beta: the child search is exact
        have hveq : v = m := hkmch.2.1 hma hmb
        have hmhigh : highest ≤ m := le_trans hha (le_of_lt hma)
        have hhigh' : max highest v = m := by rw [hveq, max_eq_right hmhigh]
        have halpha' : max alpha (max highest v) = m := by
          rw [hhigh', max_eq_right (le_of_lt hma)]
        have hnbr : ¬ beta ≤ max alpha (max highest v) := by
          rw [halpha']; exact not_le.mpr hmb
        rw [hab', if_neg hnbr, hfold, halpha', hhigh']
        have hrec := ih hkmrest m beta m hmb (le_refl m)
        have hwm : m ≤ maxFold rest d m := acc_le_maxFold _ _ _
        have hw_eq : maxFold rest d (max highest m) = maxFold rest d m := by
          rw [max_eq_right hmhigh]
        have hmaxm : max m (maxFold rest d m) = maxFold rest d m := max_eq_right hwm
        have hmaxa : max alpha (maxFold rest d (max highest m)) = maxFold rest d m := by
          rw [hw_eq]; exact max_eq_right (le_trans (le_of_lt hma) hwm)
        rw [hmaxa]
        rw [hmaxm] at hrec
        exact hrec
      · -- m ≤ alpha: the child contributes nothing; alpha survives
        have hva := hkmch.1 hma
        have hhigh' : max highest v ≤ alpha := max_le hha hva
        have halpha' : max alpha (max highest v) = alpha := max_eq_left hhigh'
        have hnbr : ¬ beta ≤ max alpha (max highest v) := by
          rw [halpha']; exact not_le.mpr hab
        rw [hab', if_neg hnbr, hfold, halpha']
        have hrec := ih hkmrest alpha beta (max highest v) hab hhigh'
        have hkey : max alpha (maxFold rest d (max highest v)) =
            max alpha (maxFold rest d (max highest m)) := by
          have h1 : max alpha (max highest v) = alpha := halpha'
          have h2 : max alpha (max highest m) = alpha :=
            max_eq_left (max_le hha hma)
          rw [maxFold_eq_max rest d (max highest v), maxFold_eq_max rest d (max highest m)]
          rw [← max_assoc alpha, h1, ← max_assoc alpha, h2]
        rw [hkey] at hrec
        exact hrec

theorem KM_all : ∀ (N : Nat) (t : GTree), sizeOf t ≤ N → ∀ d : Int, KMmin t d ∧ KMmax t d := by
  intro N
  induction N with
  | zero =>
    intro t ht
    exact absurd ht (by cases t with
      | node sc cs => simp only [GTree.node.sizeOf_spec]; omega)
  | succ N ihN =>
    intro t ht d
    cases t with
    | node sc cs =>
      have hch : ∀ p ∈ cs, ∀ d' : Int, KMmin p.2 d' ∧ KMmax p.2 d' := by
        intro p hp d'
        have hsz := sizeOf_child_lt sc hp
        exact ihN p.2 (by omega) d'
      constructor
      · intro alpha beta hab
        by_cases hbase : d = 0 ∨ cs = []
        · rw [min_play, ab_min_play, if_pos hbase, if_pos hbase]
          exact ⟨fun h => h, fun _ _ => rfl, fun h => ⟨h, le_refl _⟩⟩
        · rw [min_play, ab_min_play, if_neg hbase, if_neg hbase]
          have hspec := abMinFold_spec d cs (fun p hp => (hch p hp (d - 1)).2)
            alpha beta ⊤ hab le_top
          set w := minFold cs d ⊤ with hw
          refine ⟨?_, ?_, ?_⟩
          · intro hwa
            have : min beta w ≤ alpha := le_trans (min_le_right _ _) hwa
            exact hspec.2.1 this
          · intro haw hwb
            have hminw : min beta w = w := min_eq_right (le_of_lt hwb)
            have := hspec.1 (by rw [hminw]; exact haw)
            rw [hminw] at this
            exact this
          · intro hbw
            have hminb : min beta w = beta := min_eq_left hbw
            have := hspec.1 (by rw [hminb]; exact hab)
            rw [hminb] at this
            rw [this]
            exact ⟨le_refl _, hbw⟩
      · intro alpha beta hab
        by_cases hbase : d = 0 ∨ cs = []
        · rw [max_play, ab_max_play, if_pos hbase, if_pos hbase]
          exact ⟨fun h => ⟨h, le_refl _⟩, fun _ _ => rfl, fun h => ⟨h, le_refl _⟩⟩
        · rw [max_play, ab_max_play, if_neg hbase, if_neg hbase]
          have hspec := abMaxFold_spec d cs (fun p hp => (hch p hp (d - 1)).1)
            alpha beta ⊥ hab bot_le
          set w := maxFold cs d ⊥ with hw
          refine ⟨?_, ?_, ?_⟩
          · intro hwa
            have hmaxw : max alpha w = alpha := max_eq_left hwa
            have := hspec.1 (by rw [hmaxw]; exact hab)
            rw [hmaxw] at this
            rw [this]
            exact ⟨le_refl _, hwa⟩
          · intro haw hwb
            have hmaxw : max alpha w = w := max_eq_right (le_of_lt haw)
            have := hspec.1 (by rw [hmaxw]; exact hwb)
            rw [hmaxw] at this
            exact this
          · intro hbw
            constructor
            · exact hspec.2.1 (le_trans hbw (le_max_right _ _))
            · have := hspec.2.2
              have hmaxw : max alpha w = w :=
                max_eq_right (le_trans (le_of_lt hab) hbw)
              rw [hmaxw] at this
              exact this

/-! ## Root equivalence: alpha-beta with an unbounded window = minimax -/

theorem abRoot_eq_mmLoop (d : Int) :
    ∀ (cs : List (Move × GTree)), (∀ p ∈ cs, KMmin p.2 (d - 1)) →
      ∀ (bs : Score) (bm : Move), abRoot cs d bs ⊤ bs bm = mmLoop cs d bs bm := by
  intro cs
  induction cs with
  | nil => intro _ bs bm; rw [abRoot, mmLoop]
  | cons p rest ih =>
    intro hkm bs bm
    obtain ⟨mv, ch⟩ := p
    have hkmrest : ∀ q ∈ rest, KMmin q.2 (d - 1) :=
      fun q hq => hkm q (List.mem_cons_of_mem _ hq)
    set m := min_play ch (d - 1) with hm
    set r := ab_min_play ch (d - 1) bs ⊤ with hr
    have hrt : ¬ ((⊤ : Score) < r) := not_lt.mpr le_top
    rw [abRoot, mmLoop]
    simp only [← hm, ← hr, if_neg hrt]
    rcases eq_or_lt_of_le (le_top : bs ≤ (⊤ : Score)) with hbs | hbs
    · -- the running best is already +inf: nothing can strictly improve
      have h1 : ¬ bs < r := by rw [hbs]; exact not_lt.mpr le_top
      have h2 : ¬ bs < m := by rw [hbs]; exact not_lt.mpr le_top
      rw [if_neg h1, if_neg h2]
      have hmax : max bs r = bs := by rw [hbs]; exact max_eq_left le_top
      rw [hmax]
      exact ih hkmrest bs bm
    · have km := hkm ⟨mv, ch⟩ (List.mem_cons_self _ _) bs ⊤ hbs
      rcases le_or_lt m bs with hma | hma
      · -- the child's true value does not improve the running best
        have hra : r ≤ bs := km.1 hma
        rw [if_neg (not_lt.mpr hra), if_neg (not_lt.mpr hma), max_eq_left hra]
        exact ih hkmrest bs bm
      · rcases eq_or_lt_of_le (le_top : m ≤ (⊤ : Score)) with hmt | hmt
        · -- the child is a forced win: both searches record +inf
          have hrtop : r = ⊤ := le_antisymm le_top (km.2.2 (le_of_eq hmt.symm)).1
          rw [hrtop, if_pos (lt_of_lt_of_le hbs le_top), ← hmt, if_pos hma,
            max_eq_right (hmt ▸ le_top), hmt]
          exact ih hkmrest ⊤ mv
        · -- live window: the alpha-beta child score is exact
          have hreq : r = m := km.2.1 hma hmt
          rw [hreq, if_pos hma, if_pos hma, max_eq_right (le_of_lt hma)]
          exact ih hkmrest m mv

/-- Pure-value equivalence: with the unbounded initial window, the
alpha-beta root selects exactly the minimax move, at every depth. -/
theorem alphabeta_eq_minimax (t : GTree) (d : Int) :
    alphabeta t d ⊥ ⊤ = minimax t d := by
  cases t with
  | node sc cs =>
    cases cs with
    | nil => rw [alphabeta, minimax]
    | cons p rest =>
      obtain ⟨mv₀, ch₀⟩ := p
      rw [alphabeta, minimax]
      exact abRoot_eq_mmLoop d _
        (fun q _ => (KM_all (sizeOf q.2) q.2 (le_refl _) (d - 1)).1) ⊥ mv₀

/-! ## Bridging: under a never-expiring clock the timed search returns
`ok` with exactly the untimed value -/

theorem minFoldC_bridge (c : Clock) (cs : List (Move × GTree))
    (hel : ∀ p ∈ cs, ∀ (d' : Int) (n : Nat),
      ∃ n', max_playC c p.2 d' n = .ok (max_play p.2 d', n')) :
    ∀ (d : Int) (lowest : Score) (n : Nat),
      ∃ n', minFoldC c cs d lowest n = .ok (minFold cs d lowest, n') := by
  induction cs with
  | nil => intro d lowest n; exact ⟨n, by rw [minFoldC, minFold]⟩
  | cons p rest ih =>
    intro d lowest n
    obtain ⟨mv, ch⟩ := p
    obtain ⟨n₁, h₁⟩ := hel ⟨mv, ch⟩ (List.mem_cons_self _ _) (d - 1) n
    obtain ⟨n₂, h₂⟩ := ih (fun q hq => hel q (List.mem_cons_of_mem _ hq)) d
      (min lowest (max_play ch (d - 1))) n₁
    exact ⟨n₂, by rw [minFoldC, h₁, minFold]; exact h₂⟩

theorem maxFoldC_bridge (c : Clock) (cs : List (Move × GTree))
    (hel : ∀ p ∈ cs, ∀ (d' : Int) (n : Nat),
      ∃ n', min_playC c p.2 d' n = .ok (min_play p.2 d', n')) :
    ∀ (d : Int) (highest : Score) (n : Nat),
      ∃ n', maxFoldC c cs d highest n = .ok (maxFold cs d highest, n') := by
  induction cs with
  | nil => intro d highest n; exact ⟨n, by rw [maxFoldC, maxFold]⟩
  | cons p rest ih =>
    intro d highest n
    obtain ⟨mv, ch⟩ := p
    obtain ⟨n₁, h₁⟩ := hel ⟨mv, ch⟩ (List.mem_cons_self _ _) (d - 1) n
    obtain ⟨n₂, h₂⟩ := ih (fun q hq => hel q (List.mem_cons_of_mem _ hq)) d
      (max highest (min_play ch (d - 1))) n₁
    exact ⟨n₂, by rw [maxFoldC, h₁, maxFold]; exact h₂⟩

theorem minmax_playC_bridge (c : Clock) (hc : calm c) :
    ∀ (N : Nat) (t : GTree), sizeOf t ≤ N → ∀ (d : Int) (n : Nat),
      (∃ n', min_playC c t d n = .ok (min_play t d, n')) ∧
      (∃ n', max_playC c t d n = .ok (max_play t d, n')) := by
  intro N
  induction N with
  | zero =>
    intro t ht
    exact absurd ht (by cases t with
      | node sc cs => simp only [GTree.node.sizeOf_spec]; omega)
  | succ N ihN =>
    intro t ht d n
    cases t with
    | node sc cs =>
      have hel₁ : ∀ p ∈ cs, ∀ (d' : Int) (n₀ : Nat),
          ∃ n', min_playC c p.2 d' n₀ = .ok (min_play p.2 d', n') := by
        intro p hp d' n₀
        have hsz := sizeOf_child_lt sc hp
        exact (ihN p.2 (by omega) d' n₀).1
      have hel₂ : ∀ p ∈ cs, ∀ (d' : Int) (n₀ : Nat),
          ∃ n', max_playC c p.2 d' n₀ = .ok (max_play p.2 d', n') := by
        intro p hp d' n₀
        have hsz := sizeOf_child_lt sc hp
        exact (ihN p.2 (by omega) d' n₀).2
      constructor
      · by_cases hbase : d = 0 ∨ cs = []
        · exact ⟨n + 1, by rw [min_playC, if_neg (hc n), min_play]; simp [hbase]⟩
        · obtain ⟨n', h'⟩ := minFoldC_bridge c cs hel₂ d ⊤ (n + 1)
          exact ⟨n', by rw [min_playC, if_neg (hc n), min_play, if_neg hbase]
                        simp only [if_neg hbase]
                        exact h'⟩
      · by_cases hbase : d = 0 ∨ cs = []
        · exact ⟨n + 1, by rw [max_playC, if_neg (hc n), max_play]; simp [hbase]⟩
        · obtain ⟨n', h'⟩ := maxFoldC_bridge c cs hel₁ d ⊥ (n + 1)
          exact ⟨n', by rw [max_playC, if_neg (hc n), max_play, if_neg hbase]
                        simp only [if_neg hbase]
                        exact h'⟩

theorem abMinFoldC_bridge (c : Clock) (cs : List (Move × GTree))
    (hel : ∀ p ∈ cs, ∀ (d' : Int) (a b : Score) (n : Nat),
      ∃ n', ab_max_playC c p.2 d' a b n = .ok (ab_max_play p.2 d' a b, n')) :
    ∀ (d : Int) (alpha beta lowest : Score) (n : Nat),
      ∃ n', abMinFoldC c cs d alpha beta lowest n =
        .ok (abMinFold cs d alpha beta lowest, n') := by
  induction cs with
  | nil => intro d alpha beta lowest n; exact ⟨n, by rw [abMinFoldC, abMinFold]⟩
  | cons p rest ih =>
    intro d alpha beta lowest n
    obtain ⟨mv, ch⟩ := p
    obtain ⟨n₁, h₁⟩ := hel ⟨mv, ch⟩ (List.mem_cons_self _ _) (d - 1) alpha beta n
    by_cases hbr : min beta (min lowest (ab_max_play ch (d - 1) alpha beta)) ≤ alpha
    · exact ⟨n₁, by rw [abMinFoldC, h₁, abMinFold]; simp only [if_pos hbr]⟩
    · obtain ⟨n₂, h₂⟩ := ih (fun q hq => hel q (List.mem_cons_of_mem _ hq)) d
        alpha (min beta (min lowest (ab_max_play ch (d - 1) alpha beta)))
        (min lowest (ab_max_play ch (d - 1) alpha beta)) n₁
      exact ⟨n₂, by rw [abMinFoldC, h₁, abMinFold]; simp only [if_neg hbr]; exact h₂⟩

theorem abMaxFoldC_bridge (c : Clock) (cs : List (Move × GTree))
    (hel : ∀ p ∈ cs, ∀ (d' : Int) (a b : Score) (n : Nat),
      ∃ n', ab_min_playC c p.2 d' a b n = .ok (ab_min_play p.2 d' a b, n')) :
    ∀ (d : Int) (alpha beta highest : Score) (n : Nat),
      ∃ n', abMaxFoldC c cs d alpha beta highest n =
        .ok (abMaxFold cs d alpha beta highest, n') := by
  induction cs with
  | nil => intro d alpha beta highest n; exact ⟨n, by rw [abMaxFoldC, abMaxFold]⟩
  | cons p rest ih =>
    intro d alpha beta highest n
    obtain ⟨mv, ch⟩ := p
    obtain ⟨n₁, h₁⟩ := hel ⟨mv, ch⟩ (List.mem_cons_self _ _) (d - 1) alpha beta n
    by_cases hbr : beta ≤ max alpha (max highest (ab_min_play ch (d - 1) alpha beta))
    · exact ⟨n₁, by rw [abMaxFoldC, h₁, abMaxFold]; simp only [if_pos hbr]⟩
    · obtain ⟨n₂, h₂⟩ := ih (fun q hq => hel q (List.mem_cons_of_mem _ hq)) d
        (max alpha (max highest (ab_min_play ch (d - 1) alpha beta))) beta
        (max highest (ab_min_play ch (d - 1) alpha beta)) n₁
      exact ⟨n₂, by rw [abMaxFoldC, h₁, abMaxFold]; simp only [if_neg hbr]; exact h₂⟩

theorem ab_playC_bridge (c : Clock) (hc : calm c) :
    ∀ (N : Nat) (t : GTree), sizeOf t ≤ N → ∀ (d : Int) (a b : Score) (n : Nat),
      (∃ n', ab_min_playC c t d a b n = .ok (ab_min_play t d a b, n')) ∧
      (∃ n', ab_max_playC c t d a b n = .ok (ab_max_play t d a b, n')) := by
  intro N
  induction N with
  | zero =>
    intro t ht
    exact absurd ht (by cases t with
      | node sc cs => simp only [GTree.node.sizeOf_spec]; omega)
  | succ N ihN =>
    intro t ht d a b n
    cases t with
    | node sc cs =>
      have hel₁ : ∀ p ∈ cs, ∀ (d' : Int) (a' b' : Score) (n₀ : Nat),
          ∃ n', ab_min_playC c p.2 d' a' b' n₀ = .ok (ab_min_play p.2 d' a' b', n') := by
        intro p hp d' a' b' n₀
        have hsz := sizeOf_child_lt sc hp
        exact (ihN p.2 (by omega) d' a' b' n₀).1
      have hel₂ : ∀ p ∈ cs, ∀ (d' : Int) (a' b' : Score) (n₀ : Nat),
          ∃ n', ab_max_playC c p.2 d' a' b' n₀ = .ok (ab_max_play p.2 d' a' b', n') := by
        intro p hp d' a' b' n₀
        have hsz := sizeOf_child_lt sc hp
        exact (ihN p.2 (by omega) d' a' b' n₀).2
      constructor
      · by_cases hbase : d = 0 ∨ cs = []
        · exact ⟨n + 1, by rw [ab_min_playC, if_neg (hc n), ab_min_play]; simp [hbase]⟩
        · obtain ⟨n', h'⟩ := abMinFoldC_bridge c cs hel₂ d a b ⊤ (n + 1)
          exact ⟨n', by rw [ab_min_playC, if_neg (hc n), ab_min_play, if_neg hbase]
                        simp only [if_neg hbase]
                        exact h'⟩
      · by_cases hbase : d = 0 ∨ cs = []
        · exact ⟨n + 1, by rw [ab_max_playC, if_neg (hc n), ab_max_play]; simp [hbase]⟩
        · obtain ⟨n', h'⟩ := abMaxFoldC_bridge c cs hel₁ d a b ⊥ (n + 1)
          exact ⟨n', by rw [ab_max_playC, if_neg (hc n), ab_max_play, if_neg hbase]
                        simp only [if_neg hbase]
                        exact h'⟩

theorem mmLoopC_bridge (c : Clock) (hc : calm c) (d : Int) :
    ∀ (cs : List (Move × GTree)) (bs : Score) (bm : Move) (n : Nat),
      ∃ n', mmLoopC c cs d bs bm n = .ok (mmLoop cs d bs bm, n') := by
  intro cs
  induction cs with
  | nil => intro bs bm n; exact ⟨n, by rw [mmLoopC, mmLoop]⟩
  | cons p rest ih =>
    intro bs bm n
    obtain ⟨mv, ch⟩ := p
    obtain ⟨n₁, h₁⟩ := (minmax_playC_bridge c hc (sizeOf ch) ch (le_refl _) (d - 1) n).1
    by_cases hlt : bs < min_play ch (d - 1)
    · obtain ⟨n₂, h₂⟩ := ih (min_play ch (d - 1)) mv n₁
      exact ⟨n₂, by rw [mmLoopC, h₁, mmLoop]; simp only [if_pos hlt]; exact h₂⟩
    · obtain ⟨n₂, h₂⟩ := ih bs bm n₁
      exact ⟨n₂, by rw [mmLoopC, h₁, mmLoop]; simp only [if_neg hlt]; exact h₂⟩

theorem minimaxC_bridge (c : Clock) (hc : calm c) (t : GTree) (d : Int) (n : Nat) :
    ∃ n', minimaxC c t d n = .ok (minimax t d, n') := by
  cases t with
  | node sc cs =>
    cases cs with
    | nil => exact ⟨n + 1, by rw [minimaxC, if_neg (hc n), minimax]⟩
    | cons p rest =>
      obtain ⟨mv₀, ch₀⟩ := p
      obtain ⟨n', h'⟩ := mmLoopC_bridge c hc d ((mv₀, ch₀) :: rest) ⊥ mv₀ (n + 1)
      exact ⟨n', by rw [minimaxC, if_neg (hc n), minimax]; exact h'⟩

theorem abRootC_bridge (c : Clock) (hc : calm c) (d : Int) :
    ∀ (cs : List (Move × GTree)) (a b bs : Score) (bm : Move) (n : Nat),
      ∃ n', abRootC c cs d a b bs bm n = .ok (abRoot cs d a b bs bm, n') := by
  intro cs
  induction cs with
  | nil => intro a b bs bm n; exact ⟨n, by rw [abRootC, abRoot]⟩
  | cons p rest ih =>
    intro a b bs bm n
    obtain ⟨mv, ch⟩ := p
    obtain ⟨n₁, h₁⟩ := (ab_playC_bridge c hc (sizeOf ch) ch (le_refl _) (d - 1) a b n).1
    by_cases hbeta : b < ab_min_play ch (d - 1) a b
    · exact ⟨n₁, by rw [abRootC, h₁, abRoot]; simp only [if_pos hbeta]⟩
    · by_cases hlt : bs < ab_min_play ch (d - 1) a b
      · obtain ⟨n₂, h₂⟩ := ih (max a (ab_min_play ch (d - 1) a b)) b
          (ab_min_play ch (d - 1) a b) mv n₁
        exact ⟨n₂, by rw [abRootC, h₁, abRoot]
                      simp only [if_neg hbeta, if_pos hlt]
                      exact h₂⟩
      · obtain ⟨n₂, h₂⟩ := ih (max a (ab_min_play ch (d - 1) a b)) b bs bm n₁
        exact ⟨n₂, by rw [abRootC, h₁, abRoot]
                      simp only [if_neg hbeta, if_neg hlt]
                      exact h₂⟩

theorem alphabetaC_bridge (c : Clock) (hc : calm c) (t : GTree) (d : Int)
    (a b : Score) (n : Nat) :
    ∃ n', alphabetaC c t d a b n = .ok (alphabeta t d a b, n') := by
  cases t with
  | node sc cs =>
    cases cs with
    | nil => exact ⟨n + 1, by rw [alphabetaC, if_neg (hc n), alphabeta]⟩
    | cons p rest =>
      obtain ⟨mv₀, ch₀⟩ := p
      obtain ⟨n', h'⟩ := abRootC_bridge c hc d ((mv₀, ch₀) :: rest) a b ⊥ mv₀ (n + 1)
      exact ⟨n', by rw [alphabetaC, if_neg (hc n), alphabeta]; exact h'⟩

/-! ## Entry-guard lemmas: each recursive entry point raises `SearchTimeout`
exactly when the clock reads below threshold, before touching the state -/

theorem minimaxC_expired (c : Clock) (t : GTree) (d : Int) (n : Nat)
    (h : c.expired n) : minimaxC c t d n = .error .timeout := by
  rw [minimaxC.eq_def, if_pos h]

theorem min_playC_expired (c : Clock) (t : GTree) (d : Int) (n : Nat)
    (h : c.expired n) : min_playC c t d n = .error .timeout := by
  cases t with | node sc cs => rw [min_playC, if_pos h]

theorem max_playC_expired (c : Clock) (t : GTree) (d : Int) (n : Nat)
    (h : c.expired n) : max_playC c t d n = .error .timeout := by
  cases t with | node sc cs => rw [max_playC, if_pos h]

theorem alphabetaC_expired (c : Clock) (t : GTree) (d : Int) (a b : Score)
    (n : Nat) (h : c.expired n) : alphabetaC c t d a b n = .error .timeout := by
  rw [alphabetaC.eq_def, if_pos h]

theorem ab_min_playC_expired (c : Clock) (t : GTree) (d : Int) (a b : Score)
    (n : Nat) (h : c.expired n) : ab_min_playC c t d a b n = .error .timeout := by
  cases t with | node sc cs => rw [ab_min_playC, if_pos h]

theorem ab_max_playC_expired (c : Clock) (t : GTree) (d : Int) (a b : Score)
    (n : Nat) (h : c.expired n) : ab_max_playC c t d a b n = .error .timeout := by
  cases t with | node sc cs => rw [ab_max_playC, if_pos h]

theorem calm_clkC : calm clkC := by
  intro k
  simp only [calm, Clock.expired, clkC]
  norm_num

theorem expired_clkE : ∀ n, clkE.expired n := by
  intro n
  simp only [Clock.expired, clkE]
  norm_num

/-! ## Depth-1 root search = greedy heuristic argmax -/

theorem min_play_zero (t : GTree) : min_play t 0 = t.score := by
  cases t with
  | node sc cs => rw [min_play, if_pos (Or.inl rfl), GTree.score]

theorem le_scoreMax (cs : List (Move × GTree)) :
    ∀ p ∈ cs, p.2.score ≤ scoreMax cs := by
  induction cs with
  | nil => intro p hp; cases hp
  | cons q rest ih =>
    intro p hp
    rcases List.mem_cons.mp hp with h | h
    · rw [h, scoreMax]
      simp only [List.map_cons, List.foldr_cons]
      exact le_max_left _ _
    · refine le_trans (ih p h) ?_
      rw [scoreMax, scoreMax]
      simp only [List.map_cons, List.foldr_cons]
      exact le_max_right _ _

theorem mmLoop_all_le (cs : List (Move × GTree)) :
    ∀ (bs : Score) (bm : Move), (∀ p ∈ cs, p.2.score ≤ bs) →
      mmLoop cs 1 bs bm = bm := by
  induction cs with
  | nil => intro bs bm _; rw [mmLoop]
  | cons q rest ih =>
    intro bs bm h
    obtain ⟨mv, ch⟩ := q
    have hsc : min_play ch (1 - 1) = ch.score := by norm_num [min_play_zero]
    rw [mmLoop]
    simp only [hsc]
    rw [if_neg (not_lt.mpr (h ⟨mv, ch⟩ (List.mem_cons_self _ _)))]
    exact ih bs bm (fun p hp => h p (List.mem_cons_of_mem _ hp))

theorem mmLoop_first_max (cs : List (Move × GTree)) :
    ∀ (bs : Score) (bm : Move), bs < scoreMax cs →
      ∃ p, cs.find? (fun q => decide (scoreMax cs ≤ q.2.score)) = some p ∧
        mmLoop cs 1 bs bm = p.1 := by
  induction cs with
  | nil =>
    intro bs bm h
    rw [scoreMax] at h
    exact absurd h (by simp)
  | cons q rest ih =>
    intro bs bm h
    obtain ⟨mv, ch⟩ := q
    have hsc : min_play ch (1 - 1) = ch.score := by norm_num [min_play_zero]
    have hM : scoreMax ((mv, ch) :: rest) = max ch.score (scoreMax rest) := by
      rw [scoreMax, scoreMax]
      simp only [List.map_cons, List.foldr_cons]
    rcases le_or_lt (scoreMax rest) ch.score with hr | hr
    · -- the head attains the maximum
      have hMs : scoreMax ((mv, ch) :: rest) = ch.score := by
        rw [hM]; exact max_eq_left hr
      refine ⟨(mv, ch), ?_, ?_⟩
      · rw [List.find?_cons_of_pos]
        simp only [hMs, decide_eq_true_eq]
        exact le_refl _
      · rw [mmLoop]
        simp only [hsc]
        rw [if_pos (by rw [hMs] at h; exact h)]
        exact mmLoop_all_le rest ch.score mv
          (fun p hp => le_trans (le_scoreMax rest p hp) hr)
    · -- the maximum lives in the tail
      have hMs : scoreMax ((mv, ch) :: rest) = scoreMax rest := by
        rw [hM]; exact max_eq_right (le_of_lt hr)
      have hfind : ((mv, ch) :: rest).find?
          (fun q => decide (scoreMax ((mv, ch) :: rest) ≤ q.2.score)) =
          rest.find? (fun q => decide (scoreMax ((mv, ch) :: rest) ≤ q.2.score)) := by
        rw [List.find?_cons_of_neg]
        simp only [hMs, decide_eq_true_eq]
        exact not_le.mpr hr
      rw [hfind, hMs]
      rcases lt_or_le bs ch.score with hbs | hbs
      · obtain ⟨p, hp1, hp2⟩ := ih ch.score mv (hMs ▸ hr)
        refine ⟨p, hp1, ?_⟩
        rw [mmLoop]
        simp only [hsc]
        rw [if_pos hbs]
        exact hp2
      · obtain ⟨p, hp1, hp2⟩ := ih bs bm (by rw [hMs] at h; exact h)
        refine ⟨p, hp1, ?_⟩
        rw [mmLoop]
        simp only [hsc]
        rw [if_neg (not_lt.mpr hbs)]
        exact hp2

theorem minimax_depth1_eq_greedy (t : GTree) (hne : t.children ≠ []) :
    greedyFirstMax t = some (minimax t 1) := by
  cases t with
  | node sc cs =>
    cases cs with
    | nil => exact absurd rfl hne
    | cons q rest =>
      obtain ⟨mv₀, ch₀⟩ := q
      rw [greedyFirstMax, minimax]
      simp only [GTree.children]
      rcases lt_or_le (⊥ : Score) (scoreMax ((mv₀, ch₀) :: rest)) with hb | hb
      · obtain ⟨p, hp1, hp2⟩ := mmLoop_first_max ((mv₀, ch₀) :: rest) ⊥ mv₀ hb
        rw [hp1, hp2]
        rfl
      · -- every successor scores -inf: the first move stands
        have hall : ∀ p ∈ (mv₀, ch₀) :: rest, p.2.score ≤ (⊥ : Score) :=
          fun p hp => le_trans (le_scoreMax _ p hp) hb
        rw [mmLoop_all_le _ ⊥ mv₀ hall]
        rw [List.find?_cons_of_pos]
        · rfl
        · simp only [decide_eq_true_eq]
          exact le_trans hb bot_le

/-! ## Returned moves come from the legal-move list -/

theorem mmLoopC_mem (c : Clock) (d : Int) :
    ∀ (cs : List (Move × GTree)) (bs : Score) (bm m : Move) (n n' : Nat),
      mmLoopC c cs d bs bm n = .ok (m, n') →
      m = bm ∨ m ∈ cs.map Prod.fst := by
  intro cs
  induction cs with
  | nil =>
    intro bs bm m n n' h
    rw [mmLoopC] at h
    exact Or.inl (by injection h with h'; injection h' with h1 h2; exact h1.symm)
  | cons q rest ih =>
    intro bs bm m n n' h
    obtain ⟨mv, ch⟩ := q
    rw [mmLoopC] at h
    rcases hmp : min_playC c ch (d - 1) n with e | pr
    · rw [hmp] at h; exact absurd h (by simp)
    · rw [hmp] at h
      obtain ⟨v, n₁⟩ := pr
      simp only at h
      by_cases hlt : bs < v
      · rw [if_pos hlt] at h
        rcases ih v mv m n₁ n' h with h' | h'
        · exact Or.inr (by rw [h']; exact List.mem_cons_self _ _)
        · exact Or.inr (List.mem_cons_of_mem _ h')
      · rw [if_neg hlt] at h
        rcases ih bs bm m n₁ n' h with h' | h'
        · exact Or.inl h'
        · exact Or.inr (List.mem_cons_of_mem _ h')

theorem abRootC_mem (c : Clock) (d : Int) :
    ∀ (cs : List (Move × GTree)) (a b bs : Score) (bm m : Move) (n n' : Nat),
      abRootC c cs d a b bs bm n = .ok (m, n') →
      m = bm ∨ m ∈ cs.map Prod.fst := by
  intro cs
  induction cs with
  | nil =>
    intro a b bs bm m n n' h
    rw [abRootC] at h
    exact Or.inl (by injection h with h'; injection h' with h1 h2; exact h1.symm)
  | cons q rest ih =>
    intro a b bs bm m n n' h
    obtain ⟨mv, ch⟩ := q
    rw [abRootC] at h
    rcases hmp : ab_min_playC c ch (d - 1) a b n with e | pr
    · rw [hmp] at h; exact absurd h (by simp)
    · rw [hmp] at h
      obtain ⟨v, n₁⟩ := pr
      simp only at h
      by_cases hbeta : b < v
      · rw [if_pos hbeta] at h
        refine Or.inr ?_
        injection h with h'
        injection h' with h1 h2
        rw [← h1]
        exact List.mem_cons_self _ _
      · rw [if_neg hbeta] at h
        by_cases hlt : bs < v
        · rw [if_pos hlt] at h
          rcases ih (max a v) b v mv m n₁ n' h with h' | h'
          · exact Or.inr (by rw [h']; exact List.mem_cons_self _ _)
          · exact Or.inr (List.mem_cons_of_mem _ h')
        · rw [if_neg hlt] at h
          rcases ih (max a v) b bs bm m n₁ n' h with h' | h'
          · exact Or.inl h'
          · exact Or.inr (List.mem_cons_of_mem _ h')

/-! ## Driver-state lemmas for the iterative-deepening loop -/

theorem abState_some_of_le (c : Clock) (t : GTree) (h : t.children ≠ []) :
    ∀ (k j : Nat), j ≤ k → ∀ p, abState c t h k = some p →
      ∃ q, abState c t h j = some q := by
  intro k
  induction k with
  | zero =>
    intro j hj p hp
    have : j = 0 := Nat.le_zero.mp hj
    exact ⟨p, this ▸ hp⟩
  | succ k ihk =>
    intro j hj p hp
    rcases Nat.eq_or_lt_of_le hj with heq | hlt
    · exact ⟨p, heq ▸ hp⟩
    · have hjk : j ≤ k := Nat.lt_succ_iff.mp hlt
      rw [abState] at hp
      rcases hk : abState c t h k with _ | q
      · rw [hk] at hp; exact absurd hp (by simp)
      · exact ihk j hjk q hk

theorem abIter_reach :
    ∀ (δ : Nat) (c : Clock) (t : GTree) (h : t.children ≠ []) (k j : Nat)
      (m b : Move) (n' nb : Nat) (e : SearchTimeout),
      j + δ = k →
      abState c t h k = some (m, n') →
      alphabetaC c t ((k : Int) + 1) ⊥ ⊤ n' = .error e →
      abState c t h j = some (b, nb) →
      ∀ fuel : Nat, δ < fuel →
        abIter c t fuel ((j : Int) + 1) b nb = m := by
  intro δ
  induction δ with
  | zero =>
    intro c t h k j m b n' nb e hjk hk hcan hj fuel hfuel
    have hje : j = k := by omega
    subst hje
    rw [hj] at hk
    injection hk with hk'
    injection hk' with h1 h2
    subst h1
    subst h2
    cases fuel with
    | zero => omega
    | succ f => rw [abIter, hcan]
  | succ δ ih =>
    intro c t h k j m b n' nb e hjk hk hcan hj fuel hfuel
    obtain ⟨⟨m₁, n₁⟩, hq⟩ :=
      abState_some_of_le c t h k (j + 1) (by omega) (m, n') hk
    have hq2 := hq
    simp only [abState, hj] at hq2
    rcases halpha : alphabetaC c t ((j : Int) + 1) ⊥ ⊤ nb with e' | pr
    · rw [halpha] at hq2; exact absurd hq2 (by simp)
    · rw [halpha] at hq2
      obtain ⟨m₂, n₂⟩ := pr
      simp only [Option.some.injEq, Prod.mk.injEq] at hq2
      obtain ⟨hm, hn⟩ := hq2
      subst hm
      subst hn
      cases fuel with
      | zero => omega
      | succ f =>
        rw [abIter, halpha]
        have hcast : ((j : Int) + 1) + 1 = (((j + 1 : Nat) : Int)) + 1 := by
          push_cast; ring
        rw [hcast]
        exact ih c t h k (j + 1) m m₂ n' n₂ e (by omega) hk hcan hq f (by omega)

/-! ## Small comparison helpers for concrete fixtures -/

theorem fsc_lt_fsc {a b : ℚ} : fsc a < fsc b ↔ a < b := by
  simp [fsc]

theorem bot_lt_fsc (a : ℚ) : (⊥ : Score) < fsc a := by
  simp [fsc]

theorem not_top_lt_score (a : Score) : ¬ (⊤ : Score) < a := not_top_lt

/-! ## Claim theorems -/

/-- Claim C1: for every game state, depth `d ≥ 0` and clock position, under
a deadline clock that never drops below the threshold, `alphabeta` called
with the unbounded window `(-inf, +inf)` returns the same move as `minimax`
at the same state and depth (both return normally; pruning never changes
the selected move). -/
theorem alphabeta_refines_minimax (c : Clock) (t : GTree) (d : Int) (n : Nat)
    (hc : calm c) (hd : 0 ≤ d) :
    ∃ (m : Move) (n₁ n₂ : Nat),
      minimaxC c t d n = .ok (m, n₁) ∧ alphabetaC c t d ⊥ ⊤ n = .ok (m, n₂) := by
  obtain ⟨n₁, h₁⟩ := minimaxC_bridge c hc t d n
  obtain ⟨n₂, h₂⟩ := alphabetaC_bridge c hc t d ⊥ ⊤ n
  exact ⟨minimax t d, n₁, n₂, h₁, by rw [h₂, alphabeta_eq_minimax]⟩

theorem alphabeta_refines_minimax_witness :
    ∃ (m : Move) (n₁ n₂ : Nat),
      minimaxC clkC treeA 2 0 = .ok (m, n₁) ∧
      alphabetaC clkC treeA 2 ⊥ ⊤ 0 = .ok (m, n₂) :=
  alphabeta_refines_minimax clkC treeA 2 0 calm_clkC (by norm_num)

/-- Claim C2 as stated is false: when `AlphaBetaPlayer.get_move` is
cancelled before depth 1 completes on a state with legal moves, it returns
the FIRST LEGAL MOVE `legal_moves[0]` (to which it initialized `best_move`
at game_agent.py:418), not the sentinel `(-1, -1)`. -/
theorem ab_get_move_cancel_cex :
    AlphaBetaPlayer.get_move clkE treeA 5 = ((0 : Int), (0 : Int)) ∧
    treeA.legal_moves = [((0 : Int), (0 : Int)), ((1 : Int), (1 : Int))] ∧
    decide ((((0 : Int), (0 : Int)) : Move) = sentinel) = false := by
  refine ⟨?_, rfl, rfl⟩
  have h := alphabetaC_expired clkE treeA 1 ⊥ ⊤ 0 (expired_clkE 0)
  rw [treeA] at h ⊢
  rw [AlphaBetaPlayer.get_move, abIter, h]

/-- Claim C2, amended: if the deadline clock is already below threshold
before the depth-1 search completes (so `alphabeta(game, 1)` raises
`SearchTimeout`) and the state has legal moves, `AlphaBetaPlayer.get_move`
returns the first legal move in enumeration order — the sentinel is
returned only when there are no legal moves. -/
theorem ab_get_move_cancelled_first (c : Clock) (t : GTree) (fuel : Nat)
    (mv₀ : Move) (ch₀ : GTree) (rest : List (Move × GTree)) (e : SearchTimeout)
    (hcs : t.children = (mv₀, ch₀) :: rest)
    (hcan : alphabetaC c t 1 ⊥ ⊤ 0 = .error e) :
    AlphaBetaPlayer.get_move c t fuel = mv₀ := by
  cases t with
  | node sc cs =>
    simp only [GTree.children] at hcs
    subst hcs
    cases fuel with
    | zero => rw [AlphaBetaPlayer.get_move, abIter]
    | succ f => rw [AlphaBetaPlayer.get_move, abIter, hcan]

theorem ab_get_move_cancelled_first_witness :
    AlphaBetaPlayer.get_move clkE treeA 5 = ((0 : Int), (0 : Int)) :=
  ab_get_move_cancelled_first clkE treeA 5 ((0 : Int), (0 : Int))
    (.node (fsc 3) []) [(((1 : Int), (1 : Int)), .node (fsc 7) [])] .timeout
    rfl (alphabetaC_expired clkE treeA 1 ⊥ ⊤ 0 (expired_clkE 0))

/-- Claim C3: if, inside `AlphaBetaPlayer.get_move`'s iterative-deepening
loop, the depth-`k` search completed with move `m` (driver state
`abState … k = some (m, n')`) and the depth-`(k+1)` search raises the
cancellation exception mid-search, then `get_move` returns exactly `m`:
the partial work of depth `k+1` has no effect on the result. -/
theorem ab_get_move_keeps_completed (c : Clock) (t : GTree)
    (h : t.children ≠ []) (k : Nat) (m : Move) (n' : Nat) (e : SearchTimeout)
    (fuel : Nat) (hk : abState c t h k = some (m, n'))
    (hcan : alphabetaC c t ((k : Int) + 1) ⊥ ⊤ n' = .error e)
    (hfuel : k < fuel) :
    AlphaBetaPlayer.get_move c t fuel = m := by
  cases t with
  | node sc cs =>
    cases cs with
    | nil => exact absurd rfl h
    | cons q rest =>
      obtain ⟨mv₀, ch₀⟩ := q
      rw [AlphaBetaPlayer.get_move]
      have h0 : abState c (GTree.node sc ((mv₀, ch₀) :: rest)) h 0 =
          some (mv₀, 0) := by rw [abState]; rfl
      have hr := abIter_reach k c (GTree.node sc ((mv₀, ch₀) :: rest)) h k 0
        m mv₀ n' 0 e (by omega) hk hcan h0 fuel hfuel
      norm_num at hr
      exact hr

/-- Claim C4: when the legal-move list is empty and the deadline guard at
entry does not fire, both `minimax` and `alphabeta` return the sentinel
`(-1, -1)` at every depth and for every window. -/
theorem search_no_moves_sentinel (c : Clock) (t : GTree) (d : Int)
    (alpha beta : Score) (n : Nat) (hempty : t.children = [])
    (hok : ¬ c.expired n) :
    minimaxC c t d n = .ok (sentinel, n + 1) ∧
    alphabetaC c t d alpha beta n = .ok (sentinel, n + 1) := by
  cases t with
  | node sc cs =>
    simp only [GTree.children] at hempty
    subst hempty
    exact ⟨by rw [minimaxC, if_neg hok], by rw [alphabetaC, if_neg hok]⟩

theorem search_no_moves_sentinel_witness :
    minimaxC clkC treeLeaf 3 0 = .ok (sentinel, 1) ∧
    alphabetaC clkC treeLeaf 3 ⊥ ⊤ 0 = .ok (sentinel, 1) :=
  search_no_moves_sentinel clkC treeLeaf 3 ⊥ ⊤ 0 rfl (calm_clkC 0)

/-- Claim C5, amended: the greedy "first legal move whose successor has the
highest heuristic value" behaviour holds at depth 1, not depth 0 (at depth
0 the `depth == 0` base case of `min_play` is never reached, because the
root does not test the depth and passes `depth - 1 = -1` to its children,
so the search runs to the leaves of the game tree). -/
theorem minimax_depth1_greedy (c : Clock) (t : GTree) (n : Nat)
    (hc : calm c) (hne : t.children ≠ []) :
    ∃ (m : Move) (n' : Nat), minimaxC c t 1 n = .ok (m, n') ∧
      greedyFirstMax t = some m := by
  obtain ⟨n', h'⟩ := minimaxC_bridge c hc t 1 n
  exact ⟨minimax t 1, n', h', minimax_depth1_eq_greedy t hne⟩

theorem minimax_depth1_greedy_witness :
    ∃ (m : Move) (n' : Nat), minimaxC clkC treeA 1 0 = .ok (m, n') ∧
      greedyFirstMax treeA = some m :=
  minimax_depth1_greedy clkC treeA 0 calm_clkC (by
    rw [treeA]
    simp [GTree.children])

/-- Claim C6: every recursive entry point of both engines (`minimax`,
`min_play`, `max_play`, `alphabeta`, `ab_min_play`, `ab_max_play`) raises
`SearchTimeout` exactly when the deadline clock reads strictly below the
threshold at that entry — before any move enumeration, successor
generation, or evaluation (the error is produced uniformly for every state,
depth and window) — and, conversely, under a clock that never reads below
the threshold, none of them raises. -/
theorem timeout_guard (c : Clock) (t : GTree) (d : Int) (alpha beta : Score)
    (n : Nat) :
    (c.expired n →
      minimaxC c t d n = .error .timeout ∧
      min_playC c t d n = .error .timeout ∧
      max_playC c t d n = .error .timeout ∧
      alphabetaC c t d alpha beta n = .error .timeout ∧
      ab_min_playC c t d alpha beta n = .error .timeout ∧
      ab_max_playC c t d alpha beta n = .error .timeout) ∧
    (calm c →
      (∃ r, minimaxC c t d n = .ok r) ∧
      (∃ r, min_playC c t d n = .ok r) ∧
      (∃ r, max_playC c t d n = .ok r) ∧
      (∃ r, alphabetaC c t d alpha beta n = .ok r) ∧
      (∃ r, ab_min_playC c t d alpha beta n = .ok r) ∧
      (∃ r, ab_max_playC c t d alpha beta n = .ok r)) := by
  constructor
  · intro h
    exact ⟨minimaxC_expired c t d n h, min_playC_expired c t d n h,
      max_playC_expired c t d n h, alphabetaC_expired c t d alpha beta n h,
      ab_min_playC_expired c t d alpha beta n h,
      ab_max_playC_expired c t d alpha beta n h⟩
  · intro hc
    obtain ⟨n₁, h₁⟩ := minimaxC_bridge c hc t d n
    obtain ⟨n₂, h₂⟩ := (minmax_playC_bridge c hc (sizeOf t) t (le_refl _) d n).1
    obtain ⟨n₃, h₃⟩ := (minmax_playC_bridge c hc (sizeOf t) t (le_refl _) d n).2
    obtain ⟨n₄, h₄⟩ := alphabetaC_bridge c hc t d alpha beta n
    obtain ⟨n₅, h₅⟩ := (ab_playC_bridge c hc (sizeOf t) t (le_refl _) d alpha beta n).1
    obtain ⟨n₆, h₆⟩ := (ab_playC_bridge c hc (sizeOf t) t (le_refl _) d alpha beta n).2
    exact ⟨⟨_, h₁⟩, ⟨_, h₂⟩, ⟨_, h₃⟩, ⟨_, h₄⟩, ⟨_, h₅⟩, ⟨_, h₆⟩⟩

theorem timeout_guard_witness :
    minimaxC clkE treeA 1 0 = .error .timeout ∧
    (∃ r, minimaxC clkC treeA 1 0 = .ok r) :=
  ⟨((timeout_guard clkE treeA 1 ⊥ ⊤ 0).1 (expired_clkE 0)).1,
   ((timeout_guard clkC treeA 1 ⊥ ⊤ 0).2 calm_clkC).1⟩

/-- Claim C8: in the root loop of `alphabeta`, when the loop reaches a
child whose search score strictly exceeds the initiating `beta` bound, the
root returns that child's move immediately, with the clock position of that
child's completion — for every remainder of the sibling list (the result
does not depend on `rest`, i.e. no further sibling is explored). -/
theorem abRootC_beta_shortcircuit (c : Clock) (mv : Move) (ch : GTree)
    (rest : List (Move × GTree)) (d : Int) (alpha beta bs : Score) (bm : Move)
    (n n' : Nat) (v : Score)
    (hok : ab_min_playC c ch (d - 1) alpha beta n = .ok (v, n'))
    (hgt : beta < v) :
    abRootC c ((mv, ch) :: rest) d alpha beta bs bm n = .ok (mv, n') := by
  rw [abRootC, hok]
  simp only [if_pos hgt]

theorem abRootC_beta_shortcircuit_witness :
    abRootC clkC [(((0 : Int), (0 : Int)), .node (fsc 5) []),
        (((9 : Int), (9 : Int)), .node (fsc 0) [])] 1 ⊥ (fsc 4) ⊥
        ((7 : Int), (7 : Int)) 0 = .ok (((0 : Int), (0 : Int)), 1) :=
  abRootC_beta_shortcircuit clkC ((0 : Int), (0 : Int)) (.node (fsc 5) [])
    [(((9 : Int), (9 : Int)), .node (fsc 0) [])] 1 ⊥ (fsc 4) ⊥
    ((7 : Int), (7 : Int)) 0 1 (fsc 5)
    (by rw [ab_min_playC, if_neg (calm_clkC 0), if_pos (Or.inr rfl)])
    (fsc_lt_fsc.mpr (by norm_num))

/-- Claim C9: whenever `minimax` or `alphabeta` returns normally on a state
with a non-empty legal-move list, the returned move is an element of that
list (so it is never the sentinel and never an illegal coordinate, as long
as the sentinel is not itself a legal move). -/
theorem returned_move_legal (c : Clock) (t : GTree) (d : Int)
    (alpha beta : Score) (n : Nat) (hne : t.children ≠ []) :
    (∀ m n₁, minimaxC c t d n = .ok (m, n₁) → m ∈ t.legal_moves) ∧
    (∀ m n₂, alphabetaC c t d alpha beta n = .ok (m, n₂) → m ∈ t.legal_moves) := by
  cases t with
  | node sc cs =>
    cases cs with
    | nil => exact absurd rfl hne
    | cons q rest =>
      obtain ⟨mv₀, ch₀⟩ := q
      constructor
      · intro m n₁ hres
        by_cases hexp : c.expired n
        · rw [minimaxC_expired c _ d n hexp] at hres
          exact absurd hres (by simp)
        · rw [minimaxC, if_neg hexp] at hres
          rcases mmLoopC_mem c d _ ⊥ mv₀ m (n + 1) n₁ hres with h' | h'
          · rw [GTree.legal_moves, GTree.children, h']
            exact List.mem_map_of_mem _ (List.mem_cons_self _ _)
          · rw [GTree.legal_moves, GTree.children]
            exact h'
      · intro m n₂ hres
        by_cases hexp : c.expired n
        · rw [alphabetaC_expired c _ d alpha beta n hexp] at hres
          exact absurd hres (by simp)
        · rw [alphabetaC, if_neg hexp] at hres
          rcases abRootC_mem c d _ alpha beta ⊥ mv₀ m (n + 1) n₂ hres with h' | h'
          · rw [GTree.legal_moves, GTree.children, h']
            exact List.mem_map_of_mem _ (List.mem_cons_self _ _)
          · rw [GTree.legal_moves, GTree.children]
            exact h'

/-- Claim C10: `MinimaxPlayer.get_move` performs exactly one fixed-depth
search at `self.search_depth`; when that search raises `SearchTimeout` it
returns the sentinel `(-1, -1)` (its fallback `best_move` is initialized to
the sentinel and never updated), even when the state has legal moves; when
the search returns normally, `get_move` forwards its move unchanged. -/
theorem mm_get_move_single_search (c : Clock) (t : GTree) (d : Int) :
    (t.children ≠ [] → minimaxC c t d 0 = .error .timeout →
      MinimaxPlayer.get_move c t d = sentinel) ∧
    (∀ m n', minimaxC c t d 0 = .ok (m, n') →
      MinimaxPlayer.get_move c t d = m) := by
  constructor
  · intro _ herr
    rw [MinimaxPlayer.get_move, herr]
  · intro m n' hok
    rw [MinimaxPlayer.get_move, hok]

theorem mm_get_move_single_search_witness :
    MinimaxPlayer.get_move clkE treeA 3 = sentinel ∧
    MinimaxPlayer.get_move clkC treeLeaf 3 = sentinel :=
  ⟨(mm_get_move_single_search clkE treeA 3).1
      (by rw [treeA]; simp [GTree.children])
      (minimaxC_expired clkE treeA 3 0 (expired_clkE 0)),
   (mm_get_move_single_search clkC treeLeaf 3).2 sentinel 1
      (by rw [treeLeaf, minimaxC, if_neg (calm_clkC 0)])⟩

/-- Claim C7 is right about `opp_diff`, `opp_diff_defensive` and
`opp_diff_decay`, but the code of `opp_diff_aggressive` is wrong: its loss
branch (game_agent.py:105) is `return ('-inf')` — the Python STRING
`'-inf'`, not the float `-inf` — although its own docstring declares the
return type `float`.  At a concrete lost state the sibling heuristics
return the numeric `-inf` while `opp_diff_aggressive` returns a string. -/
theorem opp_diff_aggressive_string_on_loss :
    b0.is_loser true = true ∧
    opp_diff_aggressive b0 true = PyVal.str "-inf" ∧
    opp_diff b0 true = ⊥ ∧
    opp_diff_defensive b0 true = ⊥ ∧
    opp_diff_decay b0 true = ⊥ ∧
    opp_diff b0 false = ⊤ := by
  exact ⟨rfl, rfl, rfl, rfl, rfl, rfl⟩

/-- Claim C5 as stated (depth 0) is false: on `treeCex` the depth-0 search
returns the first move `(0,0)` (whose subtree value after the full-depth
continuation is 5), while the move whose immediate successor has the
highest heuristic value is `(1,1)` (heuristic 10, but its deeper value is
0).  At depth 0 the `depth == 0` base case is never reached, so the search
runs to the leaves instead of comparing the successors' heuristics. -/
theorem minimax_depth0_not_greedy_cex :
    minimaxC clkC treeCex 0 0 = .ok ((((0 : Int), (0 : Int)) : Move), 4) ∧
    greedyFirstMax treeCex = some ((1 : Int), (1 : Int)) ∧
    decide ((((0 : Int), (0 : Int)) : Move) = ((1 : Int), (1 : Int))) = false := by
  refine ⟨?_, by decide, rfl⟩
  norm_num [minimaxC, mmLoopC, min_playC, minFoldC, max_playC, maxFoldC,
    treeCex, clkC, Clock.expired, fsc, WithBot.bot_lt_coe, WithBot.coe_lt_coe,
    WithTop.coe_lt_coe]
  rw [if_pos (show (⊥ : Score) < 5 by decide),
    if_neg (show ¬ (5 : Score) < 0 by decide)]

theorem eval_alphabetaC_clk34_d1 :
    alphabetaC clk34 treeA 1 ⊥ ⊤ 0 = .ok ((((1 : Int), (1 : Int)) : Move), 3) := by
  norm_num [alphabetaC, abRootC, ab_min_playC, abMinFoldC, ab_max_playC,
    abMaxFoldC, treeA, clk34, Clock.expired, fsc, WithBot.bot_lt_coe,
    WithBot.coe_lt_coe, WithTop.coe_lt_coe, not_top_lt]
  rw [if_pos (show (⊥ : Score) < 3 by decide),
    if_pos (show (3 : Score) < 7 by decide)]

theorem eval_alphabetaC_clk34_d2 :
    alphabetaC clk34 treeA 2 ⊥ ⊤ 3 = .error .timeout := by
  norm_num [alphabetaC, abRootC, ab_min_playC, abMinFoldC, ab_max_playC,
    abMaxFoldC, treeA, clk34, Clock.expired, fsc, WithBot.bot_lt_coe,
    WithBot.coe_lt_coe, WithTop.coe_lt_coe, not_top_lt]

theorem treeA_children_ne : treeA.children ≠ [] := by
  rw [treeA]; simp [GTree.children]

theorem abState_clk34_one :
    abState clk34 treeA treeA_children_ne 1 =
      some ((((1 : Int), (1 : Int)) : Move), 3) := by
  rw [abState, abState]
  norm_num
  rw [eval_alphabetaC_clk34_d1]
  rfl

theorem ab_get_move_keeps_completed_witness :
    AlphaBetaPlayer.get_move clk34 treeA 5 = ((1 : Int), (1 : Int)) :=
  ab_get_move_keeps_completed clk34 treeA treeA_children_ne 1
    ((1 : Int), (1 : Int)) 3 .timeout 5 abState_clk34_one
    (by norm_num; exact eval_alphabetaC_clk34_d2) (by norm_num)

theorem eval_minimaxC_clkC_treeA :
    minimaxC clkC treeA 1 0 = .ok ((((1 : Int), (1 : Int)) : Move), 3) := by
  norm_num [minimaxC, mmLoopC, min_playC, minFoldC, max_playC, maxFoldC,
    treeA, clkC, Clock.expired, fsc, WithBot.bot_lt_coe, WithBot.coe_lt_coe,
    WithTop.coe_lt_coe]
  rw [if_pos (show (⊥ : Score) < 3 by decide),
    if_pos (show (3 : Score) < 7 by decide)]

theorem returned_move_legal_witness :
    (((1 : Int), (1 : Int)) : Move) ∈ treeA.legal_moves :=
  (returned_move_legal clkC treeA 1 ⊥ ⊤ 0 treeA_children_ne).1
    ((1 : Int), (1 : Int)) 3 eval_minimaxC_clkC_treeA
